import Mathlib

/-!
Shallow embedding of `src/cache.rs` from the `ilyvion-util` repository:
the single-value memoizing `Cache<F, V>` and the `KeyedCache<F, K, V>`.

Modelling conventions:

* `Cache<F, V>` stores `calculation_fn : Option<F>` (with `F : FnOnce() -> V`)
  and `value : Option<V>`.  The computation is modelled as a total function
  `Unit → V`; a variant `CacheE` models the computation as `Unit → Except E V`
  so that an aborting (panicking) computation and its effect on the cache
  state can be stated.
* Rust methods taking `&mut self` become state-passing functions returning
  the updated cache state.  `value_mut` additionally returns the value the
  returned `&mut V` reference points to, and a `Nat` counting how many times
  the stored computation was invoked during the call (`0` or `1`), so that
  "the computation runs exactly once" claims are expressible.
* The `unwrap` inside `Cache::value_mut` can panic when both the computation
  slot and the value slot are empty; this is modelled by `value_mut`
  returning `Option (...)`, with `none` for that panic.
* `HashMap<K, V>` is modelled as an association list `List (K × V)` with
  lookup by decidable key equality (mirroring `Hash + Eq`); `entry`'s
  `Vacant` branch appends the freshly computed entry.
-/

set_option autoImplicit false

universe u v w

namespace IlyvionUtil

/-- Embeds `Cache<F, V>` (src/cache.rs, lines 12–18): a slot for the not yet
evaluated computation and a slot for the computed value. -/
structure Cache (V : Type u) where
  calculation_fn : Option (Unit → V)
  value : Option V

namespace Cache

variable {V : Type u}

/-- Embeds `Cache::new` (src/cache.rs, lines 26–31): stores the computation
unevaluated, with no value present. -/
def new (calculation_fn : Unit → V) : Cache V :=
  { calculation_fn := some calculation_fn, value := none }

/-- Embeds `Cache::value_mut` (src/cache.rs, lines 35–39):
`self.value.get_or_insert_with(|| (calculation_fn.take().unwrap())())`.
If a value is stored, it is returned and nothing changes.  Otherwise the
computation is taken out of its slot (`take`), run, and its result stored.
Returns the pointee of the `&mut V` reference, the cache state after the
call, and the number of invocations of the stored computation performed by
this call.  `none` models the panic of `unwrap` when both slots are empty. -/
def value_mut (c : Cache V) : Option (V × Cache V × Nat) :=
  match c.value with
  | some v => some (v, c, 0)
  | none =>
    match c.calculation_fn with
    | none => none
    | some f =>
      some (f (), { calculation_fn := none, value := some (f ()) }, 1)

/-- Runs `n` successive `value_mut` calls, collecting the returned values,
the final state and the total number of computation invocations; `none` if
any call hits the `unwrap` panic.  (`Cache::value`, src/cache.rs lines
43–45, is `self.value.as_ref()`: in this embedding it is the `value` field
read itself, a pure observer that takes `&self` and can neither run the
computation nor change the state.) -/
def run : Cache V → Nat → Option (List V × Cache V × Nat)
  | c, 0 => some ([], c, 0)
  | c, n + 1 =>
    match c.value_mut with
    | none => none
    | some (v, c1, i) =>
      match run c1 n with
      | none => none
      | some (vs, c2, j) => some (v :: vs, c2, i + j)

/-- Embeds a write `*r = v` through the `&mut V` reference returned by
`value_mut`: that reference points into the cache's `value` slot, so the
write replaces the stored value in place. -/
def write_mut (c : Cache V) (v : V) : Cache V :=
  { c with value := some v }

/-- The states reachable from `Cache::new` through the public API:
`value_mut` calls that return (`value`, taking `&self`, does not change the
state). -/
inductive Reachable (f : Unit → V) : Cache V → Prop where
  | new : Reachable f (new f)
  | step : ∀ {c v c' i}, Reachable f c → c.value_mut = some (v, c', i) →
      Reachable f c'

end Cache

/-- Embeds `Cache<F, V>` with the computation's possible abort (panic) made
explicit: the computation is `Unit → Except E V`, with `Except.error`
modelling a panic that unwinds out of `value_mut`. -/
structure CacheE (E : Type u) (V : Type v) where
  calculation_fn : Option (Unit → Except E V)
  value : Option V

namespace CacheE

variable {E : Type u} {V : Type v}

/-- Embeds `Cache::new` for a possibly aborting computation. -/
def new (calculation_fn : Unit → Except E V) : CacheE E V :=
  { calculation_fn := some calculation_fn, value := none }

/-- Embeds `Cache::value_mut` for a possibly aborting computation.  The
source takes the computation out of its slot (`calculation_fn.take()`)
before invoking it, so when the invocation aborts, the unwound-to state has
the computation slot already emptied and no value stored.  Returns the
call's outcome together with the cache state observable afterwards; `none`
models the `unwrap` panic on an empty slot, which aborts before any
computation is attempted. -/
def value_mut (c : CacheE E V) : Option (Except E V × CacheE E V) :=
  match c.value with
  | some v => some (.ok v, c)
  | none =>
    match c.calculation_fn with
    | none => none
    | some f =>
      match f () with
      | .ok v => some (.ok v, { calculation_fn := none, value := some v })
      | .error e => some (.error e, { calculation_fn := none, value := none })

end CacheE

/-- Association-list lookup by owned key: embeds `HashMap` lookup keyed by
`K` (`Hash + Eq` modelled as decidable equality; the first — and, on the
states the cache produces, only — entry with an equal key is returned). -/
def lookupEntry {K : Type u} {V : Type v} [DecidableEq K] :
    List (K × V) → K → Option V
  | [], _ => none
  | e :: l, k => if e.1 = k then some e.2 else lookupEntry l k

/-- Association-list lookup through a borrowed form of the key: `b` embeds
`Borrow<Q>::borrow`, and the entry whose key borrows to `q` is returned.
Embeds `HashMap::get::<Q>` as used by `KeyedCache::value`. -/
def lookupBorrow {K : Type u} {V : Type v} {Q : Type w} [DecidableEq Q]
    (b : K → Q) : List (K × V) → Q → Option V
  | [], _ => none
  | e :: l, q => if b e.1 = q then some e.2 else lookupBorrow b l q

/-- Embeds `KeyedCache<F, K, V>` (src/cache.rs, lines 52–59): the keyed
computation (`F : FnMut(&K) -> V`, modelled as a function on keys) and the
key→value mapping, modelled as an association list. -/
structure KeyedCache (K : Type u) (V : Type v) where
  calculation_fn : K → V
  values : List (K × V)

namespace KeyedCache

variable {K : Type u} {V : Type v} {Q : Type w}

/-- Embeds `KeyedCache::new` (src/cache.rs, lines 68–73): stores the
computation with an empty mapping. -/
def new (calculation_fn : K → V) : KeyedCache K V :=
  { calculation_fn := calculation_fn, values := [] }

/-- Embeds `KeyedCache::value_mut` (src/cache.rs, lines 78–86): on a vacant
entry the computation runs on the key and the result is inserted; on an
occupied entry the stored value is returned.  Returns the pointee of the
`&mut V` reference, the state after the call, and the number of computation
invocations performed by this call. -/
def value_mut [DecidableEq K] (c : KeyedCache K V) (key : K) :
    V × KeyedCache K V × Nat :=
  match lookupEntry c.values key with
  | some v => (v, c, 0)
  | none =>
    (c.calculation_fn key,
      { c with values := c.values ++ [(key, c.calculation_fn key)] }, 1)

/-- Embeds `KeyedCache::value` (src/cache.rs, lines 90–96): pure lookup via
a borrowed form of the key (`b` embeds `Borrow<Q>::borrow`); takes `&self`,
so it can neither run the computation nor change the state. -/
def value [DecidableEq Q] (c : KeyedCache K V) (b : K → Q) (q : Q) :
    Option V :=
  lookupBorrow b c.values q

/-- Runs successive `value_mut` calls on the given keys, collecting the
returned values, the final state and the total number of computation
invocations. -/
def run [DecidableEq K] : KeyedCache K V → List K → List V × KeyedCache K V × Nat
  | c, [] => ([], c, 0)
  | c, k :: ks =>
    match c.value_mut k with
    | (v, c1, i) =>
      match run c1 ks with
      | (vs, c2, j) => (v :: vs, c2, i + j)

end KeyedCache

/-- Embeds `KeyedCache<F, K, V>` with the computation's possible abort
(panic) made explicit: the keyed computation is `K → Except E V`, with
`Except.error` modelling a panic that unwinds out of `value_mut`. -/
structure KeyedCacheE (E : Type u) (K : Type v) (V : Type w) where
  calculation_fn : K → Except E V
  values : List (K × V)

namespace KeyedCacheE

/-- Embeds `KeyedCache::value_mut` for a possibly aborting computation: on
a vacant entry the computation runs before anything is inserted, so an
abort leaves the mapping unchanged; on success the entry is inserted.  On
an occupied entry the stored value is returned without invoking anything.
Returns the outcome, the state observable afterwards, and the number of
computation invocations attempted by this call. -/
def value_mut {E : Type u} {K : Type v} {V : Type w} [DecidableEq K]
    (c : KeyedCacheE E K V) (key : K) :
    Except E V × KeyedCacheE E K V × Nat :=
  match lookupEntry c.values key with
  | some v => (.ok v, c, 0)
  | none =>
    match c.calculation_fn key with
    | .ok v => (.ok v, { c with values := c.values ++ [(key, v)] }, 1)
    | .error e => (.error e, c, 1)

end KeyedCacheE

namespace Cache

variable {V : Type u}

/-- Every reachable state is the pending state `⟨some f, none⟩` or the
computed state `⟨none, some (f ())⟩`. -/
theorem reachable_cases {f : Unit → V} {c : Cache V} (h : Reachable f c) :
    (c.calculation_fn = some f ∧ c.value = none) ∨
    (c.calculation_fn = none ∧ c.value = some (f ())) := by
  induction h with
  | new => exact Or.inl ⟨rfl, rfl⟩
  | step hr hs ih =>
    rename_i c v c' i
    rcases ih with ⟨hfn, hv⟩ | ⟨hfn, hv⟩
    · simp only [value_mut, hv, hfn] at hs
      rcases hs with ⟨rfl, rfl, rfl⟩
      exact Or.inr ⟨rfl, rfl⟩
    · simp only [value_mut, hv] at hs
      rcases hs with ⟨rfl, rfl, rfl⟩
      exact Or.inr ⟨hfn, hv⟩

/-- Once the value is computed, further `value_mut` calls return it
unchanged and never invoke anything. -/
theorem run_computed (v : V) (n : Nat) :
    run { calculation_fn := none, value := some v } n =
      some (List.replicate n v,
        { calculation_fn := none, value := some v }, 0) := by
  induction n with
  | zero => rfl
  | succ n ih => simp [run, value_mut, ih, List.replicate]

/-- `run` on a fresh cache: the first call invokes the computation once,
all later calls return the cached result. -/
theorem run_new (f : Unit → V) (n : Nat) :
    run (new f) (n + 1) =
      some (List.replicate (n + 1) (f ()),
        { calculation_fn := none, value := some (f ()) }, 1) := by
  simp [run, value_mut, new, run_computed, List.replicate]

end Cache

namespace CacheE

variable {E : Type u} {V : Type v}

/-- After the first forcing of a fresh cache, the computation slot is empty
whatever the outcome was: the one-shot computation is consumed before its
result is known. -/
theorem new_value_mut_consumes (g : Unit → Except E V) (r : Except E V)
    (c' : CacheE E V) (h : (new g).value_mut = some (r, c')) :
    c'.calculation_fn = none := by
  simp only [value_mut, new] at h
  rcases hg : g () with v | e <;> rw [hg] at h <;>
    rcases h with ⟨rfl, rfl⟩ <;> rfl

end CacheE

theorem lookupEntry_eq_none {K : Type u} {V : Type v} [DecidableEq K]
    (l : List (K × V)) (k : K) :
    lookupEntry l k = none ↔ ∀ e ∈ l, e.1 ≠ k := by
  induction l with
  | nil => simp [lookupEntry]
  | cons e l ih =>
    by_cases h : e.1 = k <;> simp [lookupEntry, h, ih]

theorem lookupEntry_isSome_iff {K : Type u} {V : Type v} [DecidableEq K]
    (l : List (K × V)) (k : K) :
    (lookupEntry l k).isSome ↔ k ∈ l.map Prod.fst := by
  induction l with
  | nil => simp [lookupEntry]
  | cons e l ih =>
    by_cases h : e.1 = k
    · simp [lookupEntry, h]
    · have h' : k ≠ e.1 := fun hk => h hk.symm
      simp [lookupEntry, h, List.mem_cons, h', ih]

theorem lookupEntry_append_of_some {K : Type u} {V : Type v} [DecidableEq K]
    {l : List (K × V)} {k : K} {v : V} (l' : List (K × V))
    (h : lookupEntry l k = some v) : lookupEntry (l ++ l') k = some v := by
  induction l with
  | nil => simp [lookupEntry] at h
  | cons e l ih =>
    by_cases he : e.1 = k <;> simp_all [lookupEntry, he]

theorem lookupEntry_append_of_none {K : Type u} {V : Type v} [DecidableEq K]
    {l : List (K × V)} {k : K} (l' : List (K × V))
    (h : lookupEntry l k = none) :
    lookupEntry (l ++ l') k = lookupEntry l' k := by
  induction l with
  | nil => simp
  | cons e l ih =>
    by_cases he : e.1 = k <;> simp_all [lookupEntry, he]

theorem lookupBorrow_eq_none {K : Type u} {V : Type v} {Q : Type w}
    [DecidableEq Q] (b : K → Q) (l : List (K × V)) (q : Q)
    (h : ∀ e ∈ l, b e.1 ≠ q) : lookupBorrow b l q = none := by
  induction l with
  | nil => rfl
  | cons e l ih =>
    simp only [List.mem_cons] at h
    simp [lookupBorrow, h e (Or.inl rfl), fun e' he' => h e' (Or.inr he')]
    exact ih fun e' he' => h e' (Or.inr he')

theorem lookupBorrow_borrow {K : Type u} {V : Type v} {Q : Type w}
    [DecidableEq K] [DecidableEq Q] (b : K → Q)
    (hb : ∀ a a', b a = b a' ↔ a = a') (l : List (K × V)) (k : K) :
    lookupBorrow b l (b k) = lookupEntry l k := by
  induction l with
  | nil => rfl
  | cons e l ih => simp [lookupBorrow, lookupEntry, hb, ih]

namespace KeyedCache

variable {K : Type u} {V : Type v} {Q : Type w}

theorem run_calculation_fn [DecidableEq K] (c : KeyedCache K V)
    (ks : List K) : (run c ks).2.1.calculation_fn = c.calculation_fn := by
  induction ks generalizing c with
  | nil => rfl
  | cons k ks ih =>
    simp only [run, value_mut]
    cases h : lookupEntry c.values k <;> simp [ih]

theorem run_length [DecidableEq K] (c : KeyedCache K V) (ks : List K) :
    (run c ks).2.1.values.length = c.values.length + (run c ks).2.2 := by
  induction ks generalizing c with
  | nil => rfl
  | cons k ks ih =>
    cases h : lookupEntry c.values k with
    | some v =>
      have h1 := ih c
      rcases hr : run c ks with ⟨vs, c2, j⟩
      rw [hr] at h1
      simp [run, value_mut, h, hr, h1]
    | none =>
      have h1 := ih { c with values := c.values ++ [(k, c.calculation_fn k)] }
      rcases hr : run { c with values := c.values ++ [(k, c.calculation_fn k)] } ks
        with ⟨vs, c2, j⟩
      rw [hr] at h1
      simp only [List.length_append, List.length_cons, List.length_nil] at h1
      simp [run, value_mut, h, hr]
      omega

theorem run_lookup_of_some [DecidableEq K] {c : KeyedCache K V} {k : K}
    {v : V} (ks : List K) (h : lookupEntry c.values k = some v) :
    lookupEntry (run c ks).2.1.values k = some v := by
  induction ks generalizing c with
  | nil => exact h
  | cons k' ks ih =>
    cases h' : lookupEntry c.values k' with
    | some w =>
      rcases hr : run c ks with ⟨vs, c2, j⟩
      have h1 := ih h
      rw [hr] at h1
      simpa [run, value_mut, h', hr] using h1
    | none =>
      have h2 : lookupEntry ({ c with values :=
            c.values ++ [(k', c.calculation_fn k')] } : KeyedCache K V).values k
          = some v := lookupEntry_append_of_some _ h
      rcases hr : run { c with values := c.values ++ [(k', c.calculation_fn k')] } ks
        with ⟨vs, c2, j⟩
      have h1 := ih h2
      rw [hr] at h1
      simpa [run, value_mut, h', hr] using h1

theorem run_lookup_of_none [DecidableEq K] {c : KeyedCache K V} {k : K}
    (ks : List K) (h : lookupEntry c.values k = none) :
    lookupEntry (run c ks).2.1.values k =
      if k ∈ ks then some (c.calculation_fn k) else none := by
  induction ks generalizing c with
  | nil => simpa [run] using h
  | cons k' ks ih =>
    cases h' : lookupEntry c.values k' with
    | some w =>
      have hk : k ≠ k' := by
        intro he
        rw [he, h'] at h
        cases h
      rcases hr : run c ks with ⟨vs, c2, j⟩
      have h1 := ih h
      rw [hr] at h1
      simpa [run, value_mut, h', hr, hk] using h1
    | none =>
      by_cases hk : k = k'
      · subst hk
        have h2 : lookupEntry ({ c with values :=
              c.values ++ [(k, c.calculation_fn k)] } : KeyedCache K V).values k
            = some (c.calculation_fn k) := by
          show lookupEntry (c.values ++ [(k, c.calculation_fn k)]) k = _
          rw [lookupEntry_append_of_none _ h]
          simp [lookupEntry]
        rcases hr : run { c with values := c.values ++ [(k, c.calculation_fn k)] } ks
          with ⟨vs, c2, j⟩
        have h1 := run_lookup_of_some ks h2
        rw [hr] at h1
        simpa [run, value_mut, h', hr] using h1
      · have hk' : k' ≠ k := fun he => hk he.symm
        have h2 : lookupEntry ({ c with values :=
              c.values ++ [(k', c.calculation_fn k')] } : KeyedCache K V).values k
            = none := by
          show lookupEntry (c.values ++ [(k', c.calculation_fn k')]) k = _
          rw [lookupEntry_append_of_none _ h]
          simp [lookupEntry, hk']
        rcases hr : run { c with values := c.values ++ [(k', c.calculation_fn k')] } ks
          with ⟨vs, c2, j⟩
        have h1 := ih h2
        rw [hr] at h1
        simpa [run, value_mut, h', hr, hk] using h1

theorem run_entries [DecidableEq K] (ks : List K) (c : KeyedCache K V)
    (e : K × V) (he : e ∈ (run c ks).2.1.values) :
    e ∈ c.values ∨ (e.1 ∈ ks ∧ e.2 = c.calculation_fn e.1) := by
  induction ks generalizing c with
  | nil => exact Or.inl he
  | cons k ks ih =>
    cases h : lookupEntry c.values k with
    | some v =>
      rcases hr : run c ks with ⟨vs, c2, j⟩
      rw [show (run c (k :: ks)).2.1 = c2 by simp [run, value_mut, h, hr]] at he
      rcases ih c (by rw [hr]; exact he) with h1 | ⟨h1, h2⟩
      · exact Or.inl h1
      · exact Or.inr ⟨List.mem_cons_of_mem _ h1, h2⟩
    | none =>
      rcases hr : run { c with values := c.values ++ [(k, c.calculation_fn k)] } ks
        with ⟨vs, c2, j⟩
      rw [show (run c (k :: ks)).2.1 = c2 by simp [run, value_mut, h, hr]] at he
      rcases ih { c with values := c.values ++ [(k, c.calculation_fn k)] }
          (by rw [hr]; exact he) with h1 | ⟨h1, h2⟩
      · rcases List.mem_append.mp h1 with h3 | h3
        · exact Or.inl h3
        · rcases List.mem_singleton.mp h3 with rfl
          exact Or.inr ⟨List.mem_cons_self _ _, rfl⟩
      · exact Or.inr ⟨List.mem_cons_of_mem _ h1, h2⟩

theorem run_nodup [DecidableEq K] (ks : List K) (c : KeyedCache K V)
    (h : (c.values.map Prod.fst).Nodup) :
    ((run c ks).2.1.values.map Prod.fst).Nodup := by
  induction ks generalizing c with
  | nil => exact h
  | cons k ks ih =>
    cases hl : lookupEntry c.values k with
    | some v =>
      rcases hr : run c ks with ⟨vs, c2, j⟩
      rw [show (run c (k :: ks)).2.1 = c2 by simp [run, value_mut, hl, hr]]
      have h1 := ih c h
      rw [hr] at h1
      exact h1
    | none =>
      rcases hr : run { c with values := c.values ++ [(k, c.calculation_fn k)] } ks
        with ⟨vs, c2, j⟩
      rw [show (run c (k :: ks)).2.1 = c2 by simp [run, value_mut, hl, hr]]
      have hk : k ∉ c.values.map Prod.fst := by
        intro hm
        rw [← lookupEntry_isSome_iff] at hm
        rw [hl] at hm
        cases hm
      have h2 : (({ c with values := c.values ++ [(k, c.calculation_fn k)] }
          : KeyedCache K V).values.map Prod.fst).Nodup := by
        simp [List.nodup_append, h, hk]
      have h1 := ih _ h2
      rw [hr] at h1
      exact h1

/-- On a fresh cache, running any sequence of keys invokes the computation
exactly once per distinct key: the total invocation count is the number of
distinct keys in the sequence. -/
theorem run_new_invocations [DecidableEq K] (f : K → V) (ks : List K) :
    (run (new f) ks).2.2 = ks.toFinset.card := by
  have hlen := run_length (new f) ks
  have hnodup := run_nodup ks (new f) (by simp [new])
  have hmem : ∀ a, a ∈ (run (new f) ks).2.1.values.map Prod.fst ↔ a ∈ ks := by
    intro a
    rw [← lookupEntry_isSome_iff]
    rw [run_lookup_of_none ks (by simp [new, lookupEntry])]
    by_cases ha : a ∈ ks <;> simp [ha, new]
  have hfin : ((run (new f) ks).2.1.values.map Prod.fst).toFinset
      = ks.toFinset := by
    ext a
    simp only [List.mem_toFinset]
    exact hmem a
  have hcard := List.toFinset_card_of_nodup hnodup
  rw [hfin] at hcard
  have hml : ((run (new f) ks).2.1.values.map Prod.fst).length
      = (run (new f) ks).2.1.values.length := List.length_map _ _
  have hv0 : (new f).values.length = 0 := rfl
  omega

end KeyedCache

/-- C1: constructing `Cache::new(f)` does not invoke `f` (the computation is
stored unevaluated and no value is present), and for any `n ≥ 1` calls to
`value_mut` on the fresh cache, the computation is invoked exactly once in
total and all `n` calls return the value of that single invocation. -/
theorem cache_compute_once (V : Type u) (f : Unit → V) (n : Nat) (h : 1 ≤ n) :
    (Cache.new f).calculation_fn = some f ∧ (Cache.new f).value = none ∧
    Cache.run (Cache.new f) n =
      some (List.replicate n (f ()),
        { calculation_fn := none, value := some (f ()) }, 1) := by
  refine ⟨rfl, rfl, ?_⟩
  obtain ⟨m, rfl⟩ := Nat.exists_eq_add_of_le h
  rw [Nat.add_comm]
  exact Cache.run_new f m

theorem cache_compute_once_witness :
    Cache.run (Cache.new (fun _ => (42 : Nat))) 3 =
      some ([42, 42, 42], { calculation_fn := none, value := some 42 }, 1) := by
  have h := cache_compute_once Nat (fun _ => (42 : Nat)) 3 (by decide)
  simpa [List.replicate] using h.2.2

/-- C5: in every state reachable from `Cache::new` through the public API,
exactly one of {computation pending, value present} holds — never both,
never neither — and the initial state is the one with the computation
pending and the value absent. -/
theorem cache_state_invariant (V : Type u) (f : Unit → V) (c : Cache V)
    (h : Cache.Reachable f c) :
    ((c.calculation_fn.isSome ∧ c.value = none) ∨
      (c.calculation_fn = none ∧ c.value.isSome)) ∧
    ¬(c.calculation_fn.isSome ∧ c.value.isSome) ∧
    (Cache.new f).calculation_fn.isSome ∧ (Cache.new f).value = none := by
  rcases Cache.reachable_cases h with ⟨h1, h2⟩ | ⟨h1, h2⟩ <;>
    simp [h1, h2, Cache.new]

theorem cache_state_invariant_witness :
    (((Cache.new (fun _ => (0 : Nat))).calculation_fn.isSome ∧
        (Cache.new (fun _ => (0 : Nat))).value = none) ∨
      ((Cache.new (fun _ => (0 : Nat))).calculation_fn = none ∧
        (Cache.new (fun _ => (0 : Nat))).value.isSome)) ∧
    ¬((Cache.new (fun _ => (0 : Nat))).calculation_fn.isSome ∧
        (Cache.new (fun _ => (0 : Nat))).value.isSome) := by
  have h := cache_state_invariant Nat (fun _ => (0 : Nat))
    (Cache.new (fun _ => (0 : Nat))) Cache.Reachable.new
  exact ⟨h.1, h.2.1⟩

/-- C6: `value()` (the read of the `value` slot, a `&self` observer that
can neither run the computation nor change the state) is absent on a fresh
cache and, after any `n ≥ 1` calls to `value_mut`, present and equal to the
computed value, the computation having run exactly once. -/
theorem cache_value_iff_forced (V : Type u) (f : Unit → V) (n : Nat)
    (h : 1 ≤ n) :
    (Cache.new f).value = none ∧
    (Cache.run (Cache.new f) n).map (fun r => (r.2.1.value, r.2.2)) =
      some (some (f ()), 1) := by
  refine ⟨rfl, ?_⟩
  obtain ⟨m, rfl⟩ := Nat.exists_eq_add_of_le h
  rw [Nat.add_comm, Cache.run_new f m]
  rfl

theorem cache_value_iff_forced_witness :
    (Cache.new (fun _ => (7 : Nat))).value = none ∧
    (Cache.run (Cache.new (fun _ => (7 : Nat))) 2).map
        (fun r => (r.2.1.value, r.2.2)) = some (some 7, 1) :=
  cache_value_iff_forced Nat (fun _ => (7 : Nat)) 2 (by decide)

/-- C8: writing `v'` through the `&mut V` returned by `value_mut` replaces
the stored value in place: the next `value_mut` returns `v'` without
invoking any computation, and `value()` reads `some v'`. -/
theorem cache_write_mut_persists (V : Type u) (f : Unit → V) (v' : V) :
    (Cache.new f).value_mut =
      some (f (), Cache.mk none (some (f ())), 1) ∧
    (Cache.write_mut (Cache.mk none (some (f ()))) v').value_mut
      = some (v', Cache.mk none (some v'), 0) ∧
    (Cache.mk (V := V) none (some v')).value = some v' :=
  ⟨rfl, rfl, rfl⟩

/-- C10: for states reachable through the public API with a normally
completing computation, `value_mut` never hits the `unwrap` panic: whenever
no value is stored, the computation slot is non-empty. -/
theorem cache_unwrap_unreachable (V : Type u) (f : Unit → V) (c : Cache V)
    (h : Cache.Reachable f c) : (Cache.value_mut c).isSome := by
  rcases Cache.reachable_cases h with ⟨h1, h2⟩ | ⟨h1, h2⟩ <;>
    simp [Cache.value_mut, h1, h2]

theorem cache_unwrap_unreachable_witness :
    (Cache.value_mut (Cache.new (fun _ => (0 : Nat)))).isSome :=
  cache_unwrap_unreachable Nat (fun _ => (0 : Nat))
    (Cache.new (fun _ => (0 : Nat))) Cache.Reachable.new

/-- C3: if the computation aborts during the first `value_mut` on a fresh
cache, the failure propagates to that caller and the cache is left with no
stored computation and no stored value; the computation is consumed before
its outcome is known, so it is attempted at most once — a later `value_mut`
hits the empty slot (the `unwrap` panic) without any second attempt. -/
theorem cache_failure_consumed (E : Type u) (V : Type v)
    (f : Unit → Except E V) (e : E) (hf : f () = .error e) :
    (CacheE.new f).value_mut =
      some (.error e, { calculation_fn := none, value := none }) ∧
    (∀ (g : Unit → Except E V) (r : Except E V) (c' : CacheE E V),
      (CacheE.new g).value_mut = some (r, c') → c'.calculation_fn = none) ∧
    ({ calculation_fn := none, value := none } : CacheE E V).value_mut
      = none := by
  refine ⟨?_, fun g r c' h => CacheE.new_value_mut_consumes g r c' h, rfl⟩
  simp [CacheE.value_mut, CacheE.new, hf]

theorem cache_failure_consumed_witness :
    (CacheE.new (fun _ => (Except.error 9 : Except Nat Nat))).value_mut =
      some (.error 9, { calculation_fn := none, value := none }) ∧
    ({ calculation_fn := none, value := none } : CacheE Nat Nat).value_mut
      = none := by
  have h := cache_failure_consumed Nat Nat
    (fun _ => (Except.error 9 : Except Nat Nat)) 9 rfl
  exact ⟨h.1, h.2.2⟩

/-- C2: on a fresh `KeyedCache::new(f)`, `f` runs at most once per distinct
key: over any sequence of `value_mut` calls the total invocation count is
the number of distinct keys; a call whose key is already computed returns
the stored value without invoking `f`; in particular `value_mut(k1)` twice
and `value_mut(k2)` twice with `k1 ≠ k2` invokes `f` exactly 2 times. -/
theorem keyed_cache_compute_once (K : Type u) (V : Type v) [DecidableEq K]
    (f : K → V) (ks : List K) (c : KeyedCache K V) (k k1 k2 : K) (v : V)
    (h : k1 ≠ k2) :
    (KeyedCache.run (KeyedCache.new f) ks).2.2 = ks.toFinset.card ∧
    (lookupEntry c.values k = some v → c.value_mut k = (v, c, 0)) ∧
    (KeyedCache.run (KeyedCache.new f) [k1, k1, k2, k2]).2.2 = 2 := by
  refine ⟨KeyedCache.run_new_invocations f ks, ?_, ?_⟩
  · intro hl
    simp [KeyedCache.value_mut, hl]
  · rw [KeyedCache.run_new_invocations f [k1, k1, k2, k2]]
    have h2 : ([k1, k1, k2, k2] : List K).toFinset = {k1, k2} := by simp
    rw [h2]
    exact Finset.card_pair h

theorem keyed_cache_compute_once_witness :
    (KeyedCache.run (KeyedCache.new (fun k => k + 5)) [5, 5, 10, 10]).2.2
      = 2 := by
  have h := keyed_cache_compute_once Nat Nat (fun k => k + 5) [5, 5, 10, 10]
    (KeyedCache.new (fun k => k + 5)) 0 5 10 0 (by decide)
  exact h.2.2

/-- C9: `KeyedCache::new(f)` yields an empty mapping, and each `value_mut`
either leaves the entries unchanged (key already present) or appends
exactly one new entry for the given key; no entry is removed and no stored
entry is replaced. -/
theorem keyed_cache_grow_only (K : Type u) (V : Type v) [DecidableEq K]
    (f : K → V) (c : KeyedCache K V) (k : K) :
    (KeyedCache.new f).values = [] ∧
    ((lookupEntry c.values k).isSome → (c.value_mut k).2.1 = c) ∧
    (lookupEntry c.values k = none →
      (c.value_mut k).2.1.values = c.values ++ [(k, c.calculation_fn k)]) := by
  refine ⟨rfl, ?_, ?_⟩
  · intro hs
    rcases Option.isSome_iff_exists.mp hs with ⟨v, hv⟩
    simp [KeyedCache.value_mut, hv]
  · intro hn
    simp [KeyedCache.value_mut, hn]

theorem keyed_cache_grow_only_witness :
    ((KeyedCache.new (fun k => k + 1)).value_mut 0).2.1.values = [(0, 1)] := by
  have h := keyed_cache_grow_only Nat Nat (fun k => k + 1)
    (KeyedCache.new (fun k => k + 1)) 0
  rw [h.2.2 rfl]
  rfl

/-- C7: `KeyedCache::value`, looking up through a borrowed form `b` of the
key (a `&self` observer that can neither run the computation nor change the
state, `b` embedding a `Borrow` implementation whose equality agrees with
the owned key's), is absent on a fresh cache, absent for any lookup key not
matched by a key passed to `value_mut`, and present with the memoized value
for every key that was passed to `value_mut`. -/
theorem keyed_cache_value_lookup (K : Type u) (V : Type v) (Q : Type w)
    [DecidableEq K] [DecidableEq Q] (f : K → V) (b : K → Q)
    (hb : ∀ a a', b a = b a' ↔ a = a') (ks : List K) (q : Q) (k : K) :
    (KeyedCache.new f).value b q = none ∧
    ((∀ a ∈ ks, b a ≠ q) →
      (KeyedCache.run (KeyedCache.new f) ks).2.1.value b q = none) ∧
    (k ∈ ks →
      (KeyedCache.run (KeyedCache.new f) ks).2.1.value b (b k)
        = some (f k)) := by
  refine ⟨rfl, ?_, ?_⟩
  · intro hq
    simp only [KeyedCache.value]
    apply lookupBorrow_eq_none
    intro e he
    rcases KeyedCache.run_entries ks (KeyedCache.new f) e he with h1 | ⟨h1, _⟩
    · simp [KeyedCache.new] at h1
    · exact hq e.1 h1
  · intro hk
    simp only [KeyedCache.value]
    rw [lookupBorrow_borrow b hb]
    have h0 : lookupEntry (KeyedCache.new f).values k = none := rfl
    rw [KeyedCache.run_lookup_of_none ks h0]
    simp [hk, KeyedCache.new]

theorem keyed_cache_value_lookup_witness :
    (KeyedCache.run (KeyedCache.new (fun k => k * 2)) [3]).2.1.value
        (fun a => a) 7 = none ∧
    (KeyedCache.run (KeyedCache.new (fun k => k * 2)) [3]).2.1.value
        (fun a => a) 3 = some 6 := by
  have h := keyed_cache_value_lookup Nat Nat Nat (fun k => k * 2)
    (fun a => a) (fun a a' => Iff.rfl) [3] 7 3
  refine ⟨h.2.1 (by decide), ?_⟩
  have h3 := h.2.2 (by simp)
  simpa using h3

/-- C4: if the keyed computation aborts during `value_mut(k)` on a vacant
key, the failure propagates, `k` is not inserted (the mapping — indeed the
whole state — is unchanged), and a later call with the same key attempts
the computation again; unlike `Cache`, whose one-shot computation slot is
emptied by the first forcing regardless of its outcome. -/
theorem keyed_cache_failure_retries (E : Type u) (K : Type v) (V : Type w)
    [DecidableEq K] (c : KeyedCacheE E K V) (k : K) (e : E)
    (hl : lookupEntry c.values k = none)
    (hf : c.calculation_fn k = .error e) :
    c.value_mut k = (.error e, c, 1) ∧
    ((c.value_mut k).2.1.value_mut k).2.2 = 1 ∧
    (∀ (W : Type w) (g : Unit → Except E W) (r : Except E W)
        (c' : CacheE E W),
      (CacheE.new g).value_mut = some (r, c') → c'.calculation_fn = none) := by
  have h1 : c.value_mut k = (.error e, c, 1) := by
    simp [KeyedCacheE.value_mut, hl, hf]
  refine ⟨h1, ?_, fun W g r c' h => CacheE.new_value_mut_consumes g r c' h⟩
  rw [h1]
  simp [KeyedCacheE.value_mut, hl, hf]

theorem keyed_cache_failure_retries_witness :
    (KeyedCacheE.mk (fun _ => (Except.error 7 : Except Nat Nat))
        ([] : List (Nat × Nat))).value_mut 0
      = (.error 7, KeyedCacheE.mk (fun _ => .error 7) [], 1) := by
  have h := keyed_cache_failure_retries Nat Nat Nat
    (KeyedCacheE.mk (fun _ => (Except.error 7 : Except Nat Nat)) []) 0 7
    rfl rfl
  exact h.1

end IlyvionUtil
